import Mathlib

/-
Verification development for the contest-gen recording engine.

The Python sources embedded here are src/contest-gen.py (the standalone
implementation) and src/contestgen/runner.py (the modularized
implementation).  Pure fragments become Lean functions; the effectful
record_test operation becomes an explicit state-passing function over a
model of the working directory.  The child process and the operator are
external to the program, so a recording run is parameterised by an
oracle describing what the child did (exit status, captured output,
files it created) and what the operator typed.
-/

namespace ContestGen

/-
Ordered YAML-like values, as produced by the ordered loader in the
sources: scalars (strings and integers), sequences, and ordered
mappings.  Mappings preserve insertion order, modelling OrderedDict.
-/
mutual
/-- Ordered YAML-like document value. -/
inductive YVal where
  | str (s : String)
  | int (n : Int)
  | list (xs : YList)
  | map (es : YMap)
deriving DecidableEq, Repr
/-- YAML sequence. -/
inductive YList where
  | nil
  | cons (v : YVal) (tl : YList)
deriving DecidableEq, Repr
/-- YAML ordered mapping, insertion order significant. -/
inductive YMap where
  | nil
  | cons (k : String) (v : YVal) (tl : YMap)
deriving DecidableEq, Repr
end

/-- Lookup of a key in an ordered mapping, first occurrence wins
(Python dict indexing d[k]). -/
def YMap.find? : YMap → String → Option YVal
  | .nil, _ => none
  | .cons k v tl, key => if k = key then some v else tl.find? key

/-- Key membership test (Python: key in d). -/
def YMap.hasKey (m : YMap) (key : String) : Bool :=
  (m.find? key).isSome

/-- Python dict assignment d[k] = v: replaces the value in place when
the key is present, otherwise appends the pair at the end, preserving
insertion order. -/
def YMap.setKey : YMap → String → YVal → YMap
  | .nil, key, v => .cons key v .nil
  | .cons k w tl, key, v =>
      if k = key then .cons k v tl else .cons k w (tl.setKey key v)

/-- Conversion from an ordinary Lean list of pairs, keeping order. -/
def YMap.ofList : List (String × YVal) → YMap
  | [] => .nil
  | (k, v) :: rest => .cons k v (YMap.ofList rest)

/-- Length of an ordered mapping. -/
def YMap.size : YMap → Nat
  | .nil => 0
  | .cons _ _ tl => tl.size + 1

/-- Conversion of a list of strings into a YAML sequence of strings. -/
def YList.ofStrings : List String → YList
  | [] => .nil
  | s :: rest => .cons (.str s) (YList.ofStrings rest)

/-- Membership of a value in a YAML sequence (Python: x in lst). -/
def YList.mem : YList → YVal → Bool
  | .nil, _ => false
  | .cons v tl, x => if v = x then true else tl.mem x

/-- Length of a YAML sequence. -/
def YList.size : YList → Nat
  | .nil => 0
  | .cons _ tl => tl.size + 1

/-- Element access in a YAML sequence. -/
def YList.get? : YList → Nat → Option YVal
  | .nil, _ => none
  | .cons v _, 0 => some v
  | .cons _ tl, n + 1 => tl.get? n

/-!
Serialization of recipe documents.

Modelled from the spec: the YAML encode/decode helpers are declared out
of scope by the spec (section 1) and are specified only through the
RecipeStore contract (section 4.4): persisting serializes the full
ordered document to text and loading parses that text back preserving
key and entry order.  The concrete Python collaborators are
yaml.dump, and ordered_load (src/contest-gen.py lines 62 to 72) resp.
yaml.load with an order-preserving loader configured by the
contestgen.utilities.configure_yaml module, which is part of the
repository but not among the given sources.  We therefore model the
codec as an executable order-preserving text encoding together with its
parser, faithful to that contract.
-/

/-- Unary encoding of a natural number used by the text codec. -/
def encUnary (n : Nat) : List Char :=
  List.replicate n 'u' ++ ['n']

mutual
/-- Text encoding of a document value. -/
def encVal : YVal → List Char
  | .str s => 'S' :: (encUnary s.data.length ++ s.data)
  | .int n =>
      'I' :: (if 0 ≤ n then 'p' :: encUnary n.toNat else 'm' :: encUnary (-n).toNat)
  | .list xs => 'L' :: (encYList xs ++ ['E'])
  | .map es => 'M' :: (encYMap es ++ ['E'])
/-- Text encoding of a sequence body. -/
def encYList : YList → List Char
  | .nil => []
  | .cons v tl => encVal v ++ encYList tl
/-- Text encoding of an ordered mapping body. -/
def encYMap : YMap → List Char
  | .nil => []
  | .cons k v tl => 'K' :: (encUnary k.data.length ++ (k.data ++ (encVal v ++ encYMap tl)))
end

/-- Serialization entry point, the model of yaml.dump. -/
def yaml_dump (v : YVal) : String :=
  String.mk (encVal v)

/-- Parser for the unary number encoding. -/
def parseUnary : List Char → Option (Nat × List Char)
  | [] => none
  | c :: cs =>
      if c = 'n' then some (0, cs)
      else if c = 'u' then
        match parseUnary cs with
        | some (k, r) => some (k + 1, r)
        | none => none
      else none

/-- Reads exactly n characters from the input. -/
def parseExact : Nat → List Char → Option (List Char × List Char)
  | 0, cs => some ([], cs)
  | _ + 1, [] => none
  | k + 1, c :: cs =>
      match parseExact k cs with
      | some (d, r) => some (c :: d, r)
      | none => none

mutual
/-- Fueled parser for a document value. -/
def parseValF : Nat → List Char → Option (YVal × List Char)
  | 0, _ => none
  | _ + 1, [] => none
  | f + 1, c :: cs =>
      if c = 'S' then
        match parseUnary cs with
        | some (n, r) =>
            match parseExact n r with
            | some (d, r2) => some (.str (String.mk d), r2)
            | none => none
        | none => none
      else if c = 'I' then
        match cs with
        | [] => none
        | sg :: cs2 =>
            if sg = 'p' then
              match parseUnary cs2 with
              | some (n, r) => some (.int (Int.ofNat n), r)
              | none => none
            else if sg = 'm' then
              match parseUnary cs2 with
              | some (n, r) => some (.int (-(Int.ofNat n)), r)
              | none => none
            else none
      else if c = 'L' then
        match parseListF f cs with
        | some (xs, r) => some (.list xs, r)
        | none => none
      else if c = 'M' then
        match parseMapF f cs with
        | some (es, r) => some (.map es, r)
        | none => none
      else none
/-- Fueled parser for a sequence body terminated by the end marker. -/
def parseListF : Nat → List Char → Option (YList × List Char)
  | 0, _ => none
  | _ + 1, [] => none
  | f + 1, c :: cs =>
      if c = 'E' then some (.nil, cs)
      else
        match parseValF f (c :: cs) with
        | some (v, r) =>
            match parseListF f r with
            | some (tl, r2) => some (.cons v tl, r2)
            | none => none
        | none => none
/-- Fueled parser for an ordered mapping body terminated by the end
marker. -/
def parseMapF : Nat → List Char → Option (YMap × List Char)
  | 0, _ => none
  | _ + 1, [] => none
  | f + 1, c :: cs =>
      if c = 'E' then some (.nil, cs)
      else if c = 'K' then
        match parseUnary cs with
        | some (n, r) =>
            match parseExact n r with
            | some (d, r2) =>
                match parseValF f r2 with
                | some (v, r3) =>
                    match parseMapF f r3 with
                    | some (tl, r4) => some (.cons (String.mk d) v tl, r4)
                    | none => none
                | none => none
            | none => none
        | none => none
      else none
end

/-- Parsing entry point, the model of the order-preserving YAML loader
(ordered_load in src/contest-gen.py, the configured yaml.load in
src/contestgen/runner.py). -/
def ordered_load (s : String) : Option YVal :=
  match parseValF (s.data.length + 1) s.data with
  | some (v, []) => some v
  | _ => none

mutual
/-- Fuel measure for parsing a value. -/
def sizeV : YVal → Nat
  | .str _ => 1
  | .int _ => 1
  | .list xs => 1 + sizeL xs
  | .map es => 1 + sizeM es
/-- Fuel measure for parsing a sequence body. -/
def sizeL : YList → Nat
  | .nil => 1
  | .cons v tl => 1 + max (sizeV v) (sizeL tl)
/-- Fuel measure for parsing a mapping body. -/
def sizeM : YMap → Nat
  | .nil => 1
  | .cons _ v tl => 1 + max (sizeV v) (sizeM tl)
end

theorem parseUnary_encUnary (n : Nat) (r : List Char) :
    parseUnary (encUnary n ++ r) = some (n, r) := by
  induction n with
  | zero => simp [encUnary, parseUnary]
  | succ k ih =>
      have h1 : encUnary (k + 1) ++ r = 'u' :: (encUnary k ++ r) := by
        simp [encUnary, List.replicate_succ]
      rw [h1]
      simp [parseUnary, ih]

theorem parseExact_append (d r : List Char) :
    parseExact d.length (d ++ r) = some (d, r) := by
  induction d with
  | nil => simp [parseExact]
  | cons c cs ih => simp [parseExact, ih]

theorem encVal_head (v : YVal) :
    ∃ c cs, encVal v = c :: cs ∧ c ≠ 'E' ∧ c ≠ 'K' := by
  cases v with
  | str s => exact ⟨'S', _, rfl, by decide, by decide⟩
  | int n => exact ⟨'I', _, rfl, by decide, by decide⟩
  | list xs => exact ⟨'L', _, rfl, by decide, by decide⟩
  | map es => exact ⟨'M', _, rfl, by decide, by decide⟩

theorem sizeV_pos (v : YVal) : 1 ≤ sizeV v := by
  cases v <;> simp [sizeV]

theorem parse_enc (f : Nat) :
    (∀ (v : YVal) (r : List Char), sizeV v ≤ f →
      parseValF f (encVal v ++ r) = some (v, r)) ∧
    (∀ (xs : YList) (r : List Char), sizeL xs ≤ f →
      parseListF f (encYList xs ++ 'E' :: r) = some (xs, r)) ∧
    (∀ (es : YMap) (r : List Char), sizeM es ≤ f →
      parseMapF f (encYMap es ++ 'E' :: r) = some (es, r)) := by
  induction f with
  | zero =>
      refine ⟨fun v r h => ?_, fun xs r h => ?_, fun es r h => ?_⟩
      · exact absurd h (by have := sizeV_pos v; omega)
      · cases xs <;> simp [sizeL] at h
      · cases es <;> simp [sizeM] at h
  | succ f ih =>
      obtain ⟨ihV, ihL, ihM⟩ := ih
      refine ⟨fun v r h => ?_, fun xs r h => ?_, fun es r h => ?_⟩
      · cases v with
        | str s =>
            cases s with
            | mk d =>
                simp only [encVal, List.cons_append, List.append_assoc, parseValF]
                simp [parseUnary_encUnary, parseExact_append]
        | int n =>
            by_cases h0 : 0 ≤ n
            · have hval : Int.ofNat n.toNat = n := by
                have h2 : (n.toNat : Int) = n := Int.toNat_of_nonneg h0
                simpa using h2
              simp only [encVal, if_pos h0, List.cons_append, parseValF]
              simp [parseUnary_encUnary, hval, h0]
            · have hm : -n ⊔ 0 = -n := max_eq_left (by omega)
              simp only [encVal, if_neg h0, List.cons_append, parseValF]
              simp [parseUnary_encUnary, hm]
        | list xs =>
            simp only [encVal, List.cons_append, List.append_assoc, List.cons_append,
              parseValF]
            have hs : sizeL xs ≤ f := by
              simp only [sizeV] at h; omega
            simp [List.nil_append, ihL xs r hs]
        | map es =>
            simp only [encVal, List.cons_append, List.append_assoc, List.cons_append,
              parseValF]
            have hs : sizeM es ≤ f := by
              simp only [sizeV] at h; omega
            simp [List.nil_append, ihM es r hs]
      · cases xs with
        | nil => simp [encYList, parseListF]
        | cons v tl =>
            obtain ⟨c, cs, hv, hcE, _⟩ := encVal_head v
            simp only [sizeL] at h
            have hmax : max (sizeV v) (sizeL tl) ≤ f := by omega
            obtain ⟨hszv, hsztl⟩ := Nat.max_le.mp hmax
            have hrw : encYList (.cons v tl) ++ 'E' :: r
                = c :: (cs ++ (encYList tl ++ 'E' :: r)) := by
              simp [encYList, hv]
            rw [hrw]
            simp only [parseListF, if_neg hcE]
            have : parseValF f (c :: (cs ++ (encYList tl ++ 'E' :: r)))
                = some (v, encYList tl ++ 'E' :: r) := by
              have := ihV v (encYList tl ++ 'E' :: r) hszv
              rw [hv] at this
              simpa using this
            rw [this]
            simp [ihL tl r hsztl]
      · cases es with
        | nil => simp [encYMap, parseMapF]
        | cons k v tl =>
            simp only [sizeM] at h
            have hmax : max (sizeV v) (sizeM tl) ≤ f := by omega
            obtain ⟨hszv, hsztl⟩ := Nat.max_le.mp hmax
            have hrw : encYMap (.cons k v tl) ++ 'E' :: r
                = 'K' :: (encUnary k.data.length
                    ++ (k.data ++ (encVal v ++ (encYMap tl ++ 'E' :: r)))) := by
              simp [encYMap]
            rw [hrw]
            simp only [parseMapF]
            simp only [reduceIte]
            have hrexact : parseExact k.data.length
                (k.data ++ (encVal v ++ (encYMap tl ++ 'E' :: r)))
                = some (k.data, encVal v ++ (encYMap tl ++ 'E' :: r)) :=
              parseExact_append _ _
            have hval := ihV v (encYMap tl ++ 'E' :: r) hszv
            have hmap := ihM tl r hsztl
            simp only [parseUnary_encUnary, hrexact, hval, hmap]
            cases k with
            | mk kd => rfl

theorem encVal_length_pos (v : YVal) : 1 ≤ (encVal v).length := by
  cases v <;> simp [encVal]

mutual
/-- The fuel measure of a value is bounded by the length of its
encoding. -/
def sizeV_le_enc : ∀ (v : YVal), sizeV v ≤ (encVal v).length
  | .str s => by simp [sizeV, encVal]
  | .int n => by
      by_cases h0 : 0 ≤ n <;> simp [sizeV, encVal, h0]
  | .list xs => by
      have := sizeL_le_enc xs
      simp only [sizeV, encVal]
      simp only [List.length_cons, List.length_append]
      omega
  | .map es => by
      have := sizeM_le_enc es
      simp only [sizeV, encVal]
      simp only [List.length_cons, List.length_append]
      omega
/-- The fuel measure of a sequence body is bounded by the length of
its encoding plus one. -/
def sizeL_le_enc : ∀ (xs : YList), sizeL xs ≤ (encYList xs).length + 1
  | .nil => by simp [sizeL, encYList]
  | .cons v tl => by
      have h1 := sizeV_le_enc v
      have h2 := sizeL_le_enc tl
      have h3 := encVal_length_pos v
      have hmax : max (sizeV v) (sizeL tl)
          ≤ (encVal v).length + (encYList tl).length :=
        Nat.max_le.mpr ⟨by omega, by omega⟩
      simp only [sizeL, encYList, List.length_append]
      omega
/-- The fuel measure of a mapping body is bounded by the length of its
encoding plus one. -/
def sizeM_le_enc : ∀ (es : YMap), sizeM es ≤ (encYMap es).length + 1
  | .nil => by simp [sizeM, encYMap]
  | .cons k v tl => by
      have h1 := sizeV_le_enc v
      have h2 := sizeM_le_enc tl
      have hmax : max (sizeV v) (sizeM tl)
          ≤ (encVal v).length + (encYMap tl).length + 1 :=
        Nat.max_le.mpr ⟨by omega, by omega⟩
      simp only [sizeM, encYMap, List.length_append, List.length_cons]
      omega
end

/-- Round-trip law for the document codec: parsing a serialized
document yields the document back. -/
theorem ordered_load_dump (v : YVal) : ordered_load (yaml_dump v) = some v := by
  unfold ordered_load yaml_dump
  have hb : sizeV v ≤ (encVal v).length + 1 := by
    have := sizeV_le_enc v
    omega
  have h := (parse_enc ((encVal v).length + 1)).1 v [] hb
  rw [List.append_nil] at h
  simp [h]

/-- The working directory, modelled as an association list from file
paths (in the form the snapshot function reports them, for example
"./out.txt") to file contents.  Directories are implicit in the
paths. -/
abbrev FS := List (String × String)

/-- Content of the file at a path, if present (first match wins). -/
def fsFind? : FS → String → Option String
  | [], _ => none
  | (q, c) :: rest, p => if q = p then some c else fsFind? rest p

/-- Writing a file: replaces the content in place when the path already
exists, otherwise creates the file at the end of the listing. -/
def fsWrite : FS → String → String → FS
  | [], p, c => [(p, c)]
  | (q, d) :: rest, p, c =>
      if q = p then (q, c) :: rest else (q, d) :: fsWrite rest p c

/-- Removing a file from the listing. -/
def fsErase : FS → String → FS
  | [], _ => []
  | (q, d) :: rest, p =>
      if q = p then fsErase rest p else (q, d) :: fsErase rest p

/-- Model of get_files (src/contestgen/runner.py lines 89 to 97 and
src/contest-gen.py lines 145 to 153): the enumeration of every regular
file path below the working directory, as full paths rooted at the
current directory. -/
def get_files (fs : FS) : List String := fs.map Prod.fst

/-- Model of os.path.split: splits a path at its last slash into the
directory part and the file name; a path without a slash has an empty
directory part. -/
def splitPath (p : String) : String × String :=
  let r := p.data.reverse
  (String.mk ((r.dropWhile (fun c => c ≠ '/')).drop 1).reverse,
   String.mk ((r.takeWhile (fun c => c ≠ '/')).reverse))

/-- Model of os.path.join on a directory part and a file name. -/
def joinPath (d n : String) : String :=
  if d = "" then n
  else if d.data.getLast? = some '/' then d ++ n
  else d ++ "/" ++ n

/-- The namespaced destination for a produced file: same directory,
file name prefixed with the fixed marker (src/contestgen/runner.py
lines 142 to 143 and src/contest-gen.py lines 198 to 199). -/
def contestBase (p : String) : String :=
  let dn := splitPath p
  joinPath dn.1 ("contest_" ++ dn.2)

/-- Model of the InputInterceptor thread body RecorderPipe.run
(src/contestgen/runner.py lines 56 to 72 and src/contest-gen.py lines
112 to 128).  The first argument is the stream of lines the operator
will type; the second is the number of liveness polls that still see
the child running, which is how the external child process is allowed
to end the relay loop at any iteration.  The first component of the
result is the lines buffer; the second is the full text written into
the write end of the pipe, each forwarded line flushed with a newline
appended.  When the operator stream is exhausted the blocking read
raises end-of-file and the daemon thread stops with the buffer as it
stands. -/
def RecorderPipe.run : List String → Nat → List String × String
  | _, 0 => ([], "")
  | [], _ + 1 => ([], "")
  | s :: rest, k + 1 =>
      let out := RecorderPipe.run rest k
      (s :: out.1, s ++ "\n" ++ out.2)

/-- Model of the relocation loop over newly produced files
(src/contestgen/runner.py lines 141 to 147 and src/contest-gen.py lines
197 to 203): each file is moved, not copied, to its namespaced base
path, silently overwriting anything already at that destination, and
one ofstream entry is recorded per file.  A missing source file makes
the underlying move raise, modelled as the failure value. -/
def moveFiles : FS → List String → Option (FS × YList)
  | fs, [] => some (fs, .nil)
  | fs, p :: rest =>
      match fsFind? fs p with
      | none => none
      | some c =>
          let base := contestBase p
          match moveFiles (fsWrite (fsErase fs p) base c) rest with
          | none => none
          | some (fs2, entries) =>
              some (fs2, .cons (.map (.cons "base-file" (.str base)
                (.cons "test-file" (.str p) .nil))) entries)

/-- Everything outside the program that one recording interacts with:
the lines the operator types, how long the interceptor sees the child
alive, and what the child did (exit status, captured output streams,
and the files it wrote with their contents, in creation order). -/
structure RunOutcome where
  inputLines : List String
  polls : Nat
  returncode : Int
  stdout : String
  stderr : String
  created : List (String × String)
deriving Repr, DecidableEq

/-- The child writes applied to the working directory. -/
def applyCreated (fs : FS) (created : List (String × String)) : FS :=
  created.foldl (fun acc pc => fsWrite acc pc.1 pc.2) fs

/-- Result value of a completed record_test call: the success sentinel
0 or an error message string (per the source docstring: return 0 for
success, otherwise return an error message). -/
inductive RecordRet where
  | zero
  | msg (s : String)
deriving Repr, DecidableEq

/-- The uncaught Python exceptions that can escape record_test. -/
inductive PyErr where
  | indexError
  | spawnError
  | yamlError
  | keyError (k : String)
  | typeError
  | fileNotFoundError
deriving Repr, DecidableEq

/-- Observable outcome of one record_test invocation: a returned value
or an uncaught exception, each together with the final working
directory. -/
inductive RecordOut where
  | ret (v : RecordRet) (fs : FS)
  | exc (e : PyErr) (fs : FS)
deriving Repr, DecidableEq

/-- The duplicate-name error message, from the format string at
src/contestgen/runner.py line 115 and src/contest-gen.py line 171. -/
def dupMsg (test_name : String) : String :=
  test_name ++ " is already a test case! Choose a new name!"

/-- Python newline join over a list of lines. -/
def joinLines : List String → String
  | [] => ""
  | [s] => s
  | s :: rest => s ++ "\n" ++ joinLines rest

/-- Starts-with test on character lists. -/
def listStarts : List Char → List Char → Bool
  | [], _ => true
  | _ :: _, [] => false
  | a :: as, b :: bs => if a = b then listStarts as bs else false

/-- Substring containment, modelling the Python membership operator on
a string. -/
def isSubstr (needle : List Char) : List Char → Bool
  | [] => needle.isEmpty
  | c :: rest => listStarts needle (c :: rest) || isSubstr needle rest

/-- The ordered test-case entries built by the modularized
implementation (src/contestgen/runner.py line 119 and lines 127 to
147): the optional executable override first, then return-code always,
then argv, stdin (as newline-joined text), stdout, stderr and
ofstreams, each of those present only when nonempty. -/
def caseEntriesR (override : List (String × YVal)) (rc : Int)
    (args lines : List String) (stdout stderr : String)
    (new_files : List String) (entries : YList) : List (String × YVal) :=
  override ++ [("return-code", .int rc)]
    ++ (if args.isEmpty then [] else [("argv", .list (YList.ofStrings args))])
    ++ (if lines.isEmpty then [] else [("stdin", .str (joinLines lines))])
    ++ (if stdout = "" then [] else [("stdout", .str stdout)])
    ++ (if stderr = "" then [] else [("stderr", .str stderr)])
    ++ (if new_files.isEmpty then [] else [("ofstreams", .list entries)])

/-- The ordered test-case entries built by the standalone
implementation (src/contest-gen.py line 175 and lines 183 to 203):
identical to the modularized builder except that stdin is recorded as
the ordered list of captured lines. -/
def caseEntriesS (override : List (String × YVal)) (rc : Int)
    (args lines : List String) (stdout stderr : String)
    (new_files : List String) (entries : YList) : List (String × YVal) :=
  override ++ [("return-code", .int rc)]
    ++ (if args.isEmpty then [] else [("argv", .list (YList.ofStrings args))])
    ++ (if lines.isEmpty then [] else [("stdin", .list (YList.ofStrings lines))])
    ++ (if stdout = "" then [] else [("stdout", .str stdout)])
    ++ (if stderr = "" then [] else [("stderr", .str stderr)])
    ++ (if new_files.isEmpty then [] else [("ofstreams", .list entries)])

/-- Final phase of a successful recording, textually shared by both
implementations (src/contestgen/runner.py lines 139 to 151 and
src/contest-gen.py lines 195 to 207): relocate the new files, attach
their ofstream entries to the test case, insert the finished case into
the document and persist the whole document to the recipe path. -/
def finishRecord (cfg : String) (fs1 : FS) (new_files : List String)
    (caseOf : YList → List (String × YVal)) (insertCase : YMap → YVal) :
    RecordOut :=
  match moveFiles fs1 new_files with
  | none => .exc .fileNotFoundError fs1
  | some (fs2, entries) =>
      .ret .zero (fsWrite fs2 cfg (yaml_dump (insertCase (YMap.ofList (caseOf entries)))))

/-- Model of record_test from src/contestgen/runner.py lines 19 to 151.
A missing run outcome means the executable could not be spawned, in
which case Popen raises before anything is written.  Afterwards the
before and after snapshots are diffed, the recipe is loaded or
initialized, the duplicate-name check is made, the test case is built,
new files are relocated and the document is rewritten.  Python dict
accesses on malformed documents surface as the corresponding
exceptions.  The source forms the diff as a Python set whose iteration
order is unspecified; the model enumerates those same new files in
snapshot order, one admissible iteration order, so conclusions about
the recorded entries should not rely on their order. -/
def record_test (configuration test_name : String) (command : List String)
    (run : Option RunOutcome) (fs : FS) : RecordOut :=
  match command with
  | [] => .exc .indexError fs
  | exe :: args =>
      match run with
      | none => .exc .spawnError fs
      | some o =>
          let before := get_files fs
          let lines := (RecorderPipe.run o.inputLines o.polls).1
          let fs1 := applyCreated fs o.created
          let new_files := (get_files fs1).filter (fun p => !(before.contains p))
          match fsFind? fs1 configuration with
          | some content =>
              match ordered_load content with
              | some (.map m) =>
                  match m.find? "test-cases" with
                  | none => .exc (.keyError "test-cases") fs1
                  | some (.map tcm) =>
                      if tcm.hasKey test_name then
                        .ret (.msg (dupMsg test_name)) fs1
                      else
                        match m.find? "executable" with
                        | none => .exc (.keyError "executable") fs1
                        | some ev =>
                            let override :=
                              if ev ≠ YVal.str exe
                              then [("executable", YVal.str exe)] else []
                            finishRecord configuration fs1 new_files
                              (caseEntriesR override o.returncode args lines
                                o.stdout o.stderr new_files)
                              (fun c => .map (m.setKey "test-cases"
                                (.map (tcm.setKey test_name (.map c)))))
                  | some (.str s) =>
                      if isSubstr test_name.data s.data then
                        .ret (.msg (dupMsg test_name)) fs1
                      else .exc .typeError fs1
                  | some (.list l) =>
                      if l.mem (.str test_name) then
                        .ret (.msg (dupMsg test_name)) fs1
                      else .exc .typeError fs1
                  | some (.int _) => .exc .typeError fs1
              | some _ => .exc .typeError fs1
              | none => .exc .yamlError fs1
          | none =>
              finishRecord configuration fs1 new_files
                (caseEntriesR [] o.returncode args lines o.stdout o.stderr
                  new_files)
                (fun c => .map (.cons "executable" (.str exe)
                  (.cons "test-cases" (.map (.cons test_name (.map c) .nil))
                    .nil)))

/-- Model of record_test from src/contest-gen.py lines 75 to 207: the
standalone implementation.  It is the same program text as the
modularized one except that the recipe path is fixed to
contest_recipe.yaml and the captured stdin is recorded as an ordered
list of lines rather than newline-joined text.  The set-iteration
modelling note on record_test applies here identically. -/
def record_test_sa (test_name : String) (command : List String)
    (run : Option RunOutcome) (fs : FS) : RecordOut :=
  match command with
  | [] => .exc .indexError fs
  | exe :: args =>
      match run with
      | none => .exc .spawnError fs
      | some o =>
          let before := get_files fs
          let lines := (RecorderPipe.run o.inputLines o.polls).1
          let fs1 := applyCreated fs o.created
          let new_files := (get_files fs1).filter (fun p => !(before.contains p))
          match fsFind? fs1 "contest_recipe.yaml" with
          | some content =>
              match ordered_load content with
              | some (.map m) =>
                  match m.find? "test-cases" with
                  | none => .exc (.keyError "test-cases") fs1
                  | some (.map tcm) =>
                      if tcm.hasKey test_name then
                        .ret (.msg (dupMsg test_name)) fs1
                      else
                        match m.find? "executable" with
                        | none => .exc (.keyError "executable") fs1
                        | some ev =>
                            let override :=
                              if ev ≠ YVal.str exe
                              then [("executable", YVal.str exe)] else []
                            finishRecord "contest_recipe.yaml" fs1 new_files
                              (caseEntriesS override o.returncode args lines
                                o.stdout o.stderr new_files)
                              (fun c => .map (m.setKey "test-cases"
                                (.map (tcm.setKey test_name (.map c)))))
                  | some (.str s) =>
                      if isSubstr test_name.data s.data then
                        .ret (.msg (dupMsg test_name)) fs1
                      else .exc .typeError fs1
                  | some (.list l) =>
                      if l.mem (.str test_name) then
                        .ret (.msg (dupMsg test_name)) fs1
                      else .exc .typeError fs1
                  | some (.int _) => .exc .typeError fs1
              | some _ => .exc .typeError fs1
              | none => .exc .yamlError fs1
          | none =>
              finishRecord "contest_recipe.yaml" fs1 new_files
                (caseEntriesS [] o.returncode args lines o.stdout o.stderr
                  new_files)
                (fun c => .map (.cons "executable" (.str exe)
                  (.cons "test-cases" (.map (.cons test_name (.map c) .nil))
                    .nil)))

/-- Model of the RecipeStore persist operation (spec section 4.4, the
dump at src/contest-gen.py lines 205 to 206): serialize the full
document to the path, overwriting it. -/
def persistRecipe (doc : YVal) (path : String) (fs : FS) : FS :=
  fsWrite fs path (yaml_dump doc)

/-- Model of the RecipeStore load operation on an existing recipe file
(src/contest-gen.py lines 167 to 169): read the file and parse it with
the order-preserving loader. -/
def loadRecipe (path : String) (fs : FS) : Option YVal :=
  match fsFind? fs path with
  | some content => ordered_load content
  | none => none

theorem fsFind?_fsWrite_self (fs : FS) (p c : String) :
    fsFind? (fsWrite fs p c) p = some c := by
  induction fs with
  | nil => simp [fsWrite, fsFind?]
  | cons e rest ih =>
      obtain ⟨q, d⟩ := e
      by_cases hq : q = p
      · simp [fsWrite, fsFind?, hq]
      · simp [fsWrite, fsFind?, hq, ih]

theorem fsFind?_fsWrite_other (fs : FS) (p q c : String) (h : q ≠ p) :
    fsFind? (fsWrite fs p c) q = fsFind? fs q := by
  induction fs with
  | nil => simp [fsWrite, fsFind?, Ne.symm h]
  | cons e rest ih =>
      obtain ⟨x, d⟩ := e
      by_cases hx : x = p
      · subst hx
        simp [fsWrite, fsFind?, Ne.symm h]
      · simp [fsWrite, fsFind?, hx, ih]

theorem fsFind?_fsErase_self (fs : FS) (p : String) :
    fsFind? (fsErase fs p) p = none := by
  induction fs with
  | nil => simp [fsErase, fsFind?]
  | cons e rest ih =>
      obtain ⟨x, d⟩ := e
      by_cases hx : x = p
      · simp [fsErase, hx, ih]
      · simp [fsErase, fsFind?, hx, ih]

theorem fsFind?_fsErase_other (fs : FS) (p q : String) (h : q ≠ p) :
    fsFind? (fsErase fs p) q = fsFind? fs q := by
  induction fs with
  | nil => simp [fsErase]
  | cons e rest ih =>
      obtain ⟨x, d⟩ := e
      by_cases hx : x = p
      · subst hx
        simp [fsErase, fsFind?, Ne.symm h, ih]
      · simp [fsErase, fsFind?, hx, ih]

theorem applyCreated_cons (fs : FS) (pc : String × String)
    (rest : List (String × String)) :
    applyCreated fs (pc :: rest) = applyCreated (fsWrite fs pc.1 pc.2) rest := rfl

theorem fsFind?_applyCreated_other (created : List (String × String)) (fs : FS)
    (q : String) (h : ∀ pc ∈ created, pc.1 ≠ q) :
    fsFind? (applyCreated fs created) q = fsFind? fs q := by
  induction created generalizing fs with
  | nil => rfl
  | cons pc rest ih =>
      rw [applyCreated_cons, ih _ (fun x hx => h x (List.mem_cons_of_mem pc hx)),
        fsFind?_fsWrite_other]
      exact Ne.symm (h pc (List.mem_cons_self pc rest))

theorem fsWrite_fresh_append (fs : FS) (p c : String)
    (h : fsFind? fs p = none) : fsWrite fs p c = fs ++ [(p, c)] := by
  induction fs with
  | nil => simp [fsWrite]
  | cons e rest ih =>
      obtain ⟨x, d⟩ := e
      by_cases hx : x = p
      · simp [fsFind?, hx] at h
      · simp only [fsFind?, if_neg hx] at h
        simp [fsWrite, hx, ih h]

/-!
Claim theorems.
-/

theorem RecorderPipe.run_fst (inputs : List String) (polls : Nat) :
    (RecorderPipe.run inputs polls).1 = inputs.take polls := by
  induction inputs generalizing polls with
  | nil => cases polls <;> simp [RecorderPipe.run]
  | cons s rest ih =>
      cases polls with
      | zero => simp [RecorderPipe.run]
      | succ k => simp [RecorderPipe.run, ih]

/-- Concatenation of a sequence of lines, each with a single newline
terminator appended: the text that passes through the channel when
exactly these lines are forwarded in this order. -/
def channelText : List String → String
  | [] => ""
  | s :: rest => s ++ "\n" ++ channelText rest

/-- Claim C3: the InputInterceptor forwards into the child input
channel exactly the lines it records, in order, each unaltered with a
single newline terminator appended; the recorded buffer is the in-order
unaltered prefix of the operator-supplied lines cut off where the child
was last seen alive, and whenever the child outlives the operator input
the recorded buffer is exactly the full operator-supplied sequence. -/
theorem interceptor_forwards_exactly (inputs : List String) (polls : Nat) :
    (RecorderPipe.run inputs polls).2
        = channelText ((RecorderPipe.run inputs polls).1)
    ∧ (RecorderPipe.run inputs polls).1 = inputs.take polls
    ∧ (inputs.length ≤ polls → (RecorderPipe.run inputs polls).1 = inputs) := by
  refine ⟨?_, RecorderPipe.run_fst inputs polls, fun hlen => ?_⟩
  · induction inputs generalizing polls with
    | nil => cases polls <;> simp [RecorderPipe.run, channelText]
    | cons s rest ih =>
        cases polls with
        | zero => simp [RecorderPipe.run, channelText]
        | succ k => simp [RecorderPipe.run, channelText, ih]
  · rw [RecorderPipe.run_fst, List.take_of_length_le hlen]

/-- Claim C3 witness: a concrete run in which the child stays alive for
three lines of operator input. -/
theorem interceptor_forwards_exactly_witness :
    (RecorderPipe.run ["a", "b"] 5).2 = channelText ((RecorderPipe.run ["a", "b"] 5).1)
    ∧ (RecorderPipe.run ["a", "b"] 5).1 = ["a", "b"] :=
  ⟨(interceptor_forwards_exactly ["a", "b"] 5).1,
   (interceptor_forwards_exactly ["a", "b"] 5).2.2 (by decide)⟩

/-- Claim C4: persisting a recipe document to a path and loading that
path back yields the identical ordered document, keys, values and
entry order preserved. -/
theorem persist_load_roundtrip (doc : YVal) (path : String) (fs : FS) :
    loadRecipe path (persistRecipe doc path fs) = some doc := by
  unfold loadRecipe persistRecipe
  rw [fsFind?_fsWrite_self]
  exact ordered_load_dump doc

/-- Discriminator for outcomes that are uncaught exceptions rather
than returned values. -/
def RecordOut.isExc : RecordOut → Bool
  | .ret _ _ => false
  | .exc _ _ => true

/-- Claim C6 counterexample: when the executable cannot be spawned,
record_test does not return the sentinel or an error string at all; the
spawn exception escapes the call, so an exception does cross the
boundary, refuting the claim at this concrete input. -/
theorem spawn_failure_exception_counterexample :
    (record_test "contest_recipe.yaml" "t" ["prog"] none []).isExc = true := by
  rfl

/-- Claim C6 amended: on the paths where record_test completes it
returns the sentinel 0 or an error message string, but a spawn failure
propagates the spawn exception out of record_test; that failure happens
before any filesystem mutation, so the working directory escapes
exactly as it was. -/
theorem spawn_failure_raises_before_mutation (cfg name exe : String)
    (args : List String) (fs : FS) :
    record_test cfg name (exe :: args) none fs = .exc .spawnError fs := rfl

theorem fsFind?_applyCreated_mem (created : List (String × String)) (fs : FS)
    (p c : String) (hmem : (p, c) ∈ created)
    (hnodup : (created.map Prod.fst).Nodup) :
    fsFind? (applyCreated fs created) p = some c := by
  induction created generalizing fs with
  | nil => cases hmem
  | cons pc rest ih =>
      rcases List.mem_cons.mp hmem with heq | htail
      · subst heq
        rw [applyCreated_cons]
        have hnotin : ∀ qc ∈ rest, qc.1 ≠ p := by
          intro qc hqc hq
          have h1 : qc.1 ∈ rest.map Prod.fst := List.mem_map_of_mem Prod.fst hqc
          rw [hq] at h1
          exact (List.nodup_cons.mp hnodup).1 h1
        rw [fsFind?_applyCreated_other rest _ p hnotin]
        exact fsFind?_fsWrite_self fs p c
      · exact ih _ htail (List.nodup_cons.mp hnodup).2

/-- A recipe document holding a default executable and one recorded
test named t, used as the pre-existing state in concrete scenarios. -/
def recipeDocT : YVal :=
  .map (.cons "executable" (.str "prog")
    (.cons "test-cases"
      (.map (.cons "t" (.map (.cons "return-code" (.int 0) .nil)) .nil)) .nil))

/-- The entries of recipeDocT. -/
def recipeMapT : YMap :=
  .cons "executable" (.str "prog")
    (.cons "test-cases"
      (.map (.cons "t" (.map (.cons "return-code" (.int 0) .nil)) .nil)) .nil)

/-- The test-cases mapping of recipeDocT. -/
def casesMapT : YMap :=
  .cons "t" (.map (.cons "return-code" (.int 0) .nil)) .nil

/-- A working directory holding only the persisted recipeDocT. -/
def recipeFsT : FS := [("contest_recipe.yaml", yaml_dump recipeDocT)]

/-- Scenario C oracle: no operator input, the child writes out.txt in
the working directory and exits with status 2. -/
def outcomeC : RunOutcome :=
  { inputLines := [], polls := 0, returncode := 2, stdout := "", stderr := "",
    created := [("./out.txt", "x")] }

/-- A quiet oracle: no input, no output, no files, exit status 0. -/
def outcomeQuiet : RunOutcome :=
  { inputLines := [], polls := 0, returncode := 0, stdout := "", stderr := "",
    created := [] }

/-- Claim C1: recording under a test name already present in the
recipe returns the descriptive duplicate-name error string, which is
not the success sentinel 0; the recipe file on disk keeps its exact
previous bytes, so no second entry is added and the pre-existing entry
under that name is unchanged. -/
theorem record_duplicate_name_error (cfg name exe : String)
    (args : List String) (o : RunOutcome) (fs : FS) (content : String)
    (m tcm : YMap)
    (hcfg : ∀ pc ∈ o.created, pc.1 ≠ cfg)
    (hrec : fsFind? fs cfg = some content)
    (hparse : ordered_load content = some (.map m))
    (htc : m.find? "test-cases" = some (.map tcm))
    (hdup : tcm.hasKey name = true) :
    record_test cfg name (exe :: args) (some o) fs
        = .ret (.msg (dupMsg name)) (applyCreated fs o.created)
    ∧ fsFind? (applyCreated fs o.created) cfg = some content
    ∧ RecordRet.msg (dupMsg name) ≠ RecordRet.zero := by
  have hrec1 : fsFind? (applyCreated fs o.created) cfg = some content :=
    (fsFind?_applyCreated_other o.created fs cfg hcfg).trans hrec
  refine ⟨?_, hrec1, by simp⟩
  simp only [record_test, hrec1, hparse, htc, hdup, if_true]

/-- Claim C1 witness: repeating a recording under the already-present
name t against the persisted recipeDocT. -/
theorem record_duplicate_name_error_witness :
    record_test "contest_recipe.yaml" "t" ["prog"] (some outcomeC) recipeFsT
        = .ret (.msg (dupMsg "t")) (applyCreated recipeFsT outcomeC.created)
    ∧ fsFind? (applyCreated recipeFsT outcomeC.created) "contest_recipe.yaml"
        = some (yaml_dump recipeDocT)
    ∧ RecordRet.msg (dupMsg "t") ≠ RecordRet.zero :=
  record_duplicate_name_error "contest_recipe.yaml" "t" "prog" [] outcomeC
    recipeFsT (yaml_dump recipeDocT) recipeMapT casesMapT
    (by decide) rfl (ordered_load_dump recipeDocT) rfl rfl

/-- Claim C5 counterexample: a recording that ends in the duplicate-name
error with the relocations not performed.  The child created out.txt;
the duplicate-name error is returned, yet out.txt still sits at its
original path and no contest-prefixed copy exists, refuting the claim
that the moves have already happened whenever the error is returned. -/
theorem duplicate_error_no_moves_counterexample :
    record_test "contest_recipe.yaml" "t" ["prog"] (some outcomeC) recipeFsT
        = .ret (.msg (dupMsg "t")) (applyCreated recipeFsT outcomeC.created)
    ∧ fsFind? (applyCreated recipeFsT outcomeC.created) "./out.txt" = some "x"
    ∧ fsFind? (applyCreated recipeFsT outcomeC.created) "./contest_out.txt"
        = none := by
  refine ⟨?_, rfl, rfl⟩
  rfl

/-- Claim C5 amended: the duplicate-name check runs only after the child
process has run, so the side effects of the run itself stand and are
not rolled back, but it runs before the relocation loop: whenever the
duplicate-name error is returned the working directory is exactly the
post-run state, every file the child created is still at its original
path, no file has been moved to its base-file path, and the recipe file
is untouched. -/
theorem duplicate_error_after_run_before_moves (cfg name exe : String)
    (args : List String) (o : RunOutcome) (fs : FS) (content : String)
    (m tcm : YMap)
    (hcfg : ∀ pc ∈ o.created, pc.1 ≠ cfg)
    (hnodup : (o.created.map Prod.fst).Nodup)
    (hrec : fsFind? fs cfg = some content)
    (hparse : ordered_load content = some (.map m))
    (htc : m.find? "test-cases" = some (.map tcm))
    (hdup : tcm.hasKey name = true) :
    record_test cfg name (exe :: args) (some o) fs
        = .ret (.msg (dupMsg name)) (applyCreated fs o.created)
    ∧ (∀ p c, (p, c) ∈ o.created →
        fsFind? (applyCreated fs o.created) p = some c)
    ∧ fsFind? (applyCreated fs o.created) cfg = some content := by
  have hrec1 : fsFind? (applyCreated fs o.created) cfg = some content :=
    (fsFind?_applyCreated_other o.created fs cfg hcfg).trans hrec
  refine ⟨?_, fun p c hm => fsFind?_applyCreated_mem o.created fs p c hm hnodup,
    hrec1⟩
  simp only [record_test, hrec1, hparse, htc, hdup, if_true]

/-- Claim C5 witness for the amended statement: the duplicate scenario
against recipeDocT with the child having created out.txt. -/
theorem duplicate_error_after_run_before_moves_witness :
    record_test "contest_recipe.yaml" "t" ["prog"] (some outcomeC) recipeFsT
        = .ret (.msg (dupMsg "t")) (applyCreated recipeFsT outcomeC.created)
    ∧ (∀ p c, (p, c) ∈ outcomeC.created →
        fsFind? (applyCreated recipeFsT outcomeC.created) p = some c)
    ∧ fsFind? (applyCreated recipeFsT outcomeC.created) "contest_recipe.yaml"
        = some (yaml_dump recipeDocT) :=
  duplicate_error_after_run_before_moves "contest_recipe.yaml" "t" "prog" []
    outcomeC recipeFsT (yaml_dump recipeDocT) recipeMapT casesMapT
    (by decide) (by decide) rfl (ordered_load_dump recipeDocT) rfl rfl

/-- Claim C9: when the recipe file exists and parses but the document
lacks the test-cases key, record_test raises a key error instead of
returning an error string; likewise, when the test-cases mapping is
present and free of the new name but the document lacks the executable
key, the comparison against the default executable raises a key error.
The no-exceptions boundary therefore holds only for well-formed recipe
files. -/
theorem malformed_recipe_raises (cfg name exe : String) (args : List String)
    (o : RunOutcome) (fs : FS) (content : String) (m : YMap)
    (hrec : fsFind? (applyCreated fs o.created) cfg = some content)
    (hparse : ordered_load content = some (.map m)) :
    (m.find? "test-cases" = none →
        record_test cfg name (exe :: args) (some o) fs
          = .exc (.keyError "test-cases") (applyCreated fs o.created))
    ∧ (∀ tcm, m.find? "test-cases" = some (.map tcm) →
        tcm.hasKey name = false →
        m.find? "executable" = none →
        record_test cfg name (exe :: args) (some o) fs
          = .exc (.keyError "executable") (applyCreated fs o.created)) := by
  constructor
  · intro hmiss
    simp only [record_test, hrec, hparse, hmiss]
  · intro tcm htc hfree hexe
    simp only [record_test, hrec, hparse, htc, hfree, hexe, Bool.false_eq_true,
      if_false]

/-- Claim C9 witness: two malformed recipes, one lacking test-cases
altogether and one with an empty test-cases mapping but no executable
key. -/
theorem malformed_recipe_raises_witness :
    record_test "r.yaml" "t" ["prog"] (some outcomeQuiet)
        [("r.yaml", yaml_dump (.map .nil))]
      = .exc (.keyError "test-cases")
          (applyCreated [("r.yaml", yaml_dump (.map .nil))] outcomeQuiet.created)
    ∧ record_test "r.yaml" "t" ["prog"] (some outcomeQuiet)
        [("r.yaml", yaml_dump (.map (.cons "test-cases" (.map .nil) .nil)))]
      = .exc (.keyError "executable")
          (applyCreated [("r.yaml", yaml_dump (.map (.cons "test-cases" (.map .nil) .nil)))]
            outcomeQuiet.created) :=
  ⟨(malformed_recipe_raises "r.yaml" "t" "prog" [] outcomeQuiet
      [("r.yaml", yaml_dump (.map .nil))] (yaml_dump (.map .nil)) .nil
      rfl (ordered_load_dump (.map .nil))).1 rfl,
   (malformed_recipe_raises "r.yaml" "t" "prog" [] outcomeQuiet
      [("r.yaml", yaml_dump (.map (.cons "test-cases" (.map .nil) .nil)))]
      (yaml_dump (.map (.cons "test-cases" (.map .nil) .nil)))
      (.cons "test-cases" (.map .nil) .nil)
      rfl (ordered_load_dump (.map (.cons "test-cases" (.map .nil) .nil)))).2
    .nil rfl rfl rfl⟩

theorem list_isEmpty_iff_nil {α : Type} (l : List α) : l.isEmpty = true ↔ l = [] := by
  cases l <;> simp

theorem finishRecord_eq (cfg : String) (fs1 : FS) (nf : List String)
    (co : YList → List (String × YVal)) (ic : YMap → YVal) (fs2 : FS)
    (entries : YList) (hmv : moveFiles fs1 nf = some (fs2, entries)) :
    finishRecord cfg fs1 nf co ic
      = .ret .zero (fsWrite fs2 cfg (yaml_dump (ic (YMap.ofList (co entries))))) := by
  unfold finishRecord
  rw [hmv]

set_option maxHeartbeats 4000000 in
/-- Claim C7: every successful recording persists the built test case;
in that case return-code is always present, argv is present exactly
when the argument list is nonempty, stdin exactly when interactive
input was captured, stdout and stderr exactly when the captured text is
nonempty, and ofstreams exactly when new files were produced; in
particular a command producing no new files and consuming no input
yields a case with no stdin and no ofstreams keys. -/
theorem persisted_case_key_presence (cfg : String) (fs1 : FS)
    (nf : List String) (ov : List (String × YVal)) (rc : Int)
    (args lines : List String) (so se : String) (insertCase : YMap → YVal)
    (fs2 : FS) (entries : YList)
    (hmv : moveFiles fs1 nf = some (fs2, entries))
    (hov : ov = [] ∨ ∃ s, ov = [("executable", YVal.str s)]) :
    finishRecord cfg fs1 nf (caseEntriesR ov rc args lines so se nf) insertCase
        = .ret .zero (fsWrite fs2 cfg (yaml_dump (insertCase
            (YMap.ofList (caseEntriesR ov rc args lines so se nf entries)))))
    ∧ (YMap.ofList (caseEntriesR ov rc args lines so se nf entries)).find?
        "return-code" = some (.int rc)
    ∧ ((YMap.ofList (caseEntriesR ov rc args lines so se nf entries)).find?
        "argv" = none ↔ args = [])
    ∧ ((YMap.ofList (caseEntriesR ov rc args lines so se nf entries)).find?
        "stdin" = none ↔ lines = [])
    ∧ ((YMap.ofList (caseEntriesR ov rc args lines so se nf entries)).find?
        "stdout" = none ↔ so = "")
    ∧ ((YMap.ofList (caseEntriesR ov rc args lines so se nf entries)).find?
        "stderr" = none ↔ se = "")
    ∧ ((YMap.ofList (caseEntriesR ov rc args lines so se nf entries)).find?
        "ofstreams" = none ↔ nf = []) := by
  constructor
  · exact finishRecord_eq _ _ _ _ _ _ _ hmv
  refine ⟨?_, ?_, ?_, ?_, ?_, ?_⟩ <;>
    rcases hov with h | ⟨s, h⟩ <;> subst h <;>
    by_cases ha : args = [] <;> by_cases hl : lines = [] <;>
    by_cases hso : so = "" <;> by_cases hse : se = "" <;>
    by_cases hnf : nf = [] <;>
    simp [caseEntriesR, YMap.ofList, YMap.find?, list_isEmpty_iff_nil,
      ha, hl, hso, hse, hnf]

/-- Claim C7 witness: a quiet successful recording (no arguments, no
input, empty stderr, nonempty stdout, no new files) persisted through
finishRecord; its case has return-code and stdout and no other keys. -/
theorem persisted_case_key_presence_witness :
    finishRecord "contest_recipe.yaml" [] []
        (caseEntriesR [] 0 [] [] "hello\n" "" []) (fun c => YVal.map c)
        = .ret .zero (fsWrite [] "contest_recipe.yaml" (yaml_dump (YVal.map
            (YMap.ofList (caseEntriesR [] 0 [] [] "hello\n" "" [] .nil)))))
    ∧ (YMap.ofList (caseEntriesR [] 0 [] [] "hello\n" "" [] .nil)).find?
        "return-code" = some (.int 0)
    ∧ ((YMap.ofList (caseEntriesR [] 0 [] [] "hello\n" "" [] .nil)).find?
        "stdin" = none ↔ ([] : List String) = [])
    ∧ ((YMap.ofList (caseEntriesR [] 0 [] [] "hello\n" "" [] .nil)).find?
        "ofstreams" = none ↔ ([] : List String) = []) := by
  have h := persisted_case_key_presence "contest_recipe.yaml" [] [] [] 0 [] []
    "hello\n" "" (fun c => YVal.map c) [] .nil rfl (Or.inl rfl)
  exact ⟨h.1, h.2.1, h.2.2.2.1, h.2.2.2.2.2.2⟩

theorem fsFind?_append (a b : FS) (p : String) :
    fsFind? (a ++ b) p
      = match fsFind? a p with
        | some c => some c
        | none => fsFind? b p := by
  induction a with
  | nil => simp [fsFind?]
  | cons e rest ih =>
      obtain ⟨x, d⟩ := e
      by_cases hx : x = p <;> simp [fsFind?, hx, ih]

theorem fsFind?_eq_none_iff (fs : FS) (p : String) :
    fsFind? fs p = none ↔ p ∉ get_files fs := by
  induction fs with
  | nil => simp [fsFind?, get_files]
  | cons e rest ih =>
      obtain ⟨x, d⟩ := e
      have hg : get_files ((x, d) :: rest) = x :: get_files rest := rfl
      rw [hg]
      by_cases hx : x = p
      · subst hx
        simp [fsFind?]
      · have hpx : ¬ p = x := fun he => hx he.symm
        simp [fsFind?, hx, ih, hpx]

theorem contains_eq_false_of_find_none (fs : FS) (p : String)
    (h : fsFind? fs p = none) : (get_files fs).contains p = false := by
  have hnot := (fsFind?_eq_none_iff fs p).mp h
  rw [Bool.eq_false_iff]
  intro hc
  exact hnot (List.elem_iff.mp hc)

theorem filter_not_self_contains (l : List String) :
    l.filter (fun q => !(l.contains q)) = [] := by
  rw [List.filter_eq_nil_iff]
  intro a ha
  have hc : l.contains a = true := List.elem_eq_true_of_mem ha
  simp [hc, ha]

theorem applyCreated_fresh_append (created : List (String × String)) (fs : FS)
    (hfresh : ∀ pc ∈ created, fsFind? fs pc.1 = none)
    (hnodup : (created.map Prod.fst).Nodup) :
    applyCreated fs created = fs ++ created := by
  induction created generalizing fs with
  | nil => simp [applyCreated]
  | cons pc rest ih =>
      rw [applyCreated_cons]
      have h1 : fsWrite fs pc.1 pc.2 = fs ++ [pc] := by
        have h2 := fsWrite_fresh_append fs pc.1 pc.2
          (hfresh pc (List.mem_cons_self pc rest))
        simpa using h2
      rw [h1]
      have hfresh2 : ∀ qc ∈ rest, fsFind? (fs ++ [pc]) qc.1 = none := by
        intro qc hqc
        rw [fsFind?_append, hfresh qc (List.mem_cons_of_mem pc hqc)]
        have hne : pc.1 ≠ qc.1 := by
          intro he
          have hmem : qc.1 ∈ rest.map Prod.fst := List.mem_map_of_mem Prod.fst hqc
          rw [← he] at hmem
          exact (List.nodup_cons.mp hnodup).1 hmem
        simp [fsFind?, hne]
      rw [ih (fs ++ [pc]) hfresh2 (List.nodup_cons.mp hnodup).2]
      simp

theorem new_files_of_created (created : List (String × String)) (fs : FS)
    (hfresh : ∀ pc ∈ created, fsFind? fs pc.1 = none)
    (hnodup : (created.map Prod.fst).Nodup) :
    (get_files (applyCreated fs created)).filter
        (fun q => !((get_files fs).contains q)) = created.map Prod.fst := by
  rw [applyCreated_fresh_append created fs hfresh hnodup]
  have hsplit : get_files (fs ++ created) = get_files fs ++ created.map Prod.fst := by
    simp [get_files]
  rw [hsplit, List.filter_append, filter_not_self_contains]
  have h2 : (created.map Prod.fst).filter
      (fun q => !((get_files fs).contains q)) = created.map Prod.fst := by
    rw [List.filter_eq_self]
    intro a ha
    obtain ⟨pc, hpc, rfl⟩ := List.mem_map.mp ha
    rw [contains_eq_false_of_find_none fs pc.1 (hfresh pc hpc)]
    rfl
  rw [h2]
  simp

theorem moveFiles_spec (ps : List String) (fs : FS)
    (hnodup : ps.Nodup)
    (hbasedisj : ∀ p ∈ ps, ∀ q ∈ ps, contestBase q ≠ p)
    (hbasenodup : (ps.map contestBase).Nodup)
    (hsrc : ∀ p ∈ ps, (fsFind? fs p).isSome) :
    ∃ fs2 entries, moveFiles fs ps = some (fs2, entries)
      ∧ entries.size = ps.length
      ∧ (∀ i p, ps[i]? = some p → entries.get? i
          = some (.map (.cons "base-file" (.str (contestBase p))
              (.cons "test-file" (.str p) .nil))))
      ∧ (∀ p ∈ ps, fsFind? fs2 p = none)
      ∧ (∀ p ∈ ps, fsFind? fs2 (contestBase p) = fsFind? fs p)
      ∧ (∀ q, q ∉ ps → (∀ p ∈ ps, contestBase p ≠ q) →
          fsFind? fs2 q = fsFind? fs q) := by
  induction ps generalizing fs with
  | nil =>
      refine ⟨fs, .nil, rfl, rfl, ?_, by simp, by simp, fun q _ _ => rfl⟩
      intro i p hp
      simp at hp
  | cons p rest ih =>
      obtain ⟨c, hc⟩ := Option.isSome_iff_exists.mp (hsrc p (List.mem_cons_self p rest))
      have hpnotrest : p ∉ rest := (List.nodup_cons.mp hnodup).1
      have hrestnodup : rest.Nodup := (List.nodup_cons.mp hnodup).2
      have hbd_rest : ∀ a ∈ rest, ∀ b ∈ rest, contestBase b ≠ a := fun a ha b hb =>
        hbasedisj a (List.mem_cons_of_mem p ha) b (List.mem_cons_of_mem p hb)
      have hbn_rest : (rest.map contestBase).Nodup := by
        have := hbasenodup
        simp only [List.map_cons, List.nodup_cons] at this
        exact this.2
      have hbasenotin : contestBase p ∉ rest.map contestBase := by
        have := hbasenodup
        simp only [List.map_cons, List.nodup_cons] at this
        exact this.1
      have hfs'_frame : ∀ q ∈ rest,
          fsFind? (fsWrite (fsErase fs p) (contestBase p) c) q = fsFind? fs q := by
        intro q hq
        rw [fsFind?_fsWrite_other _ _ _ _
          (Ne.symm (hbasedisj q (List.mem_cons_of_mem p hq) p
            (List.mem_cons_self p rest))),
          fsFind?_fsErase_other _ _ _
            (fun he => hpnotrest (by rw [he] at hq; exact hq))]
      have hsrc' : ∀ q ∈ rest,
          (fsFind? (fsWrite (fsErase fs p) (contestBase p) c) q).isSome := by
        intro q hq
        rw [hfs'_frame q hq]
        exact hsrc q (List.mem_cons_of_mem p hq)
      obtain ⟨fs2, entries, hmv, hsize, hidx, habsent, hbase, hframe⟩ :=
        ih (fsWrite (fsErase fs p) (contestBase p) c) hrestnodup hbd_rest
          hbn_rest hsrc'
      refine ⟨fs2, .cons (.map (.cons "base-file" (.str (contestBase p))
          (.cons "test-file" (.str p) .nil))) entries, ?_, ?_, ?_, ?_, ?_, ?_⟩
      · simp only [moveFiles, hc, hmv]
      · simp [YList.size, hsize]
      · intro i q hq
        cases i with
        | zero =>
            simp only [List.getElem?_cons_zero, Option.some.injEq] at hq
            subst hq
            rfl
        | succ j =>
            simp only [List.getElem?_cons_succ] at hq
            simpa [YList.get?] using hidx j q hq
      · intro q hq
        rcases List.mem_cons.mp hq with rfl | hq2
        · have hnotin2 : ∀ a ∈ rest, contestBase a ≠ q := fun a ha =>
            hbasedisj q (List.mem_cons_self q rest) a (List.mem_cons_of_mem q ha)
          rw [hframe q hpnotrest hnotin2,
            fsFind?_fsWrite_other _ _ _ _
              (Ne.symm (hbasedisj q (List.mem_cons_self q rest) q
                (List.mem_cons_self q rest))),
            fsFind?_fsErase_self]
        · exact habsent q hq2
      · intro q hq
        rcases List.mem_cons.mp hq with rfl | hq2
        · have hbnotinrest : contestBase q ∉ rest := fun hmem =>
            (hbasedisj (contestBase q) (List.mem_cons_of_mem q hmem) q
              (List.mem_cons_self q rest)) rfl
          have hbases : ∀ a ∈ rest, contestBase a ≠ contestBase q := by
            intro a ha heq
            exact hbasenotin (heq ▸ List.mem_map_of_mem contestBase ha)
          rw [hframe (contestBase q) hbnotinrest hbases, fsFind?_fsWrite_self, hc]
        · rw [hbase q hq2, hfs'_frame q hq2]
      · intro q hqnot hqbases
        have hq_ne_p : q ≠ p := fun he => hqnot (he ▸ List.mem_cons_self p rest)
        rw [hframe q (fun hm => hqnot (List.mem_cons_of_mem p hm))
            (fun a ha => hqbases a (List.mem_cons_of_mem p ha)),
          fsFind?_fsWrite_other _ _ _ _
            (Ne.symm (hqbases p (List.mem_cons_self p rest))),
          fsFind?_fsErase_other _ _ _ hq_ne_p]

theorem record_test_existing_branch (cfg name exe : String) (args : List String)
    (o : RunOutcome) (fs : FS) (content : String) (m tcm : YMap) (ev : YVal)
    (hrec1 : fsFind? (applyCreated fs o.created) cfg = some content)
    (hparse : ordered_load content = some (.map m))
    (htc : m.find? "test-cases" = some (.map tcm))
    (hfree : tcm.hasKey name = false)
    (hexe : m.find? "executable" = some ev) :
    record_test cfg name (exe :: args) (some o) fs
      = finishRecord cfg (applyCreated fs o.created)
          ((get_files (applyCreated fs o.created)).filter
            (fun p => !((get_files fs).contains p)))
          (caseEntriesR
            (if ev ≠ YVal.str exe then [("executable", YVal.str exe)] else [])
            o.returncode args ((RecorderPipe.run o.inputLines o.polls).1)
            o.stdout o.stderr
            ((get_files (applyCreated fs o.created)).filter
              (fun p => !((get_files fs).contains p))))
          (fun c => .map (m.setKey "test-cases"
            (.map (tcm.setKey name (.map c))))) := by
  simp only [record_test, hrec1, hparse, htc, hfree, hexe, Bool.false_eq_true,
    if_false]

theorem record_test_fresh_branch (cfg name exe : String) (args : List String)
    (o : RunOutcome) (fs : FS)
    (hrec : fsFind? (applyCreated fs o.created) cfg = none) :
    record_test cfg name (exe :: args) (some o) fs
      = finishRecord cfg (applyCreated fs o.created)
          ((get_files (applyCreated fs o.created)).filter
            (fun p => !((get_files fs).contains p)))
          (caseEntriesR [] o.returncode args
            ((RecorderPipe.run o.inputLines o.polls).1) o.stdout o.stderr
            ((get_files (applyCreated fs o.created)).filter
              (fun p => !((get_files fs).contains p))))
          (fun c => .map (.cons "executable" (.str exe)
            (.cons "test-cases" (.map (.cons name (.map c) .nil)) .nil))) := by
  simp only [record_test, hrec]

/-- Claim C10: relocating a newly produced file performs no collision
check: when a file already exists at the contest-prefixed destination,
for example the reference copy left by an earlier recording, the move
silently overwrites it with the newly produced content, so the
pre-existing base-file copy is not preserved. -/
theorem base_file_silently_overwritten (cfg name exe : String)
    (args : List String) (o : RunOutcome) (fs : FS) (content : String)
    (m tcm : YMap) (ev : YVal) (p cNew cOld : String)
    (hoc : o.created = [(p, cNew)])
    (hpfresh : fsFind? fs p = none)
    (hbase : fsFind? fs (contestBase p) = some cOld)
    (hbasecfg : contestBase p ≠ cfg)
    (hbasep : contestBase p ≠ p)
    (hrec : fsFind? fs cfg = some content)
    (hparse : ordered_load content = some (.map m))
    (htc : m.find? "test-cases" = some (.map tcm))
    (hfree : tcm.hasKey name = false)
    (hexe : m.find? "executable" = some ev) :
    ∃ fsOut, record_test cfg name (exe :: args) (some o) fs = .ret .zero fsOut
      ∧ fsFind? fsOut (contestBase p) = some cNew
      ∧ (cNew ≠ cOld → fsFind? fsOut (contestBase p) ≠ some cOld) := by
  have hpne : p ≠ cfg := by
    intro he
    rw [he, hrec] at hpfresh
    cases hpfresh
  have hfs1 : applyCreated fs o.created = fsWrite fs p cNew := by
    rw [hoc]
    rfl
  have hrec1 : fsFind? (applyCreated fs o.created) cfg = some content := by
    rw [hfs1, fsFind?_fsWrite_other _ _ _ _ (Ne.symm hpne)]
    exact hrec
  have hred := record_test_existing_branch cfg name exe args o fs content m tcm
    ev hrec1 hparse htc hfree hexe
  have hnf : (get_files (applyCreated fs o.created)).filter
      (fun q => !((get_files fs).contains q)) = [p] := by
    rw [hoc]
    have h2 := new_files_of_created [(p, cNew)] fs
      (by
        intro pc hpc
        rw [List.mem_singleton.mp hpc]
        exact hpfresh)
      (by simp)
    simpa using h2
  rw [hnf] at hred
  have hfindp : fsFind? (applyCreated fs o.created) p = some cNew := by
    rw [hfs1]
    exact fsFind?_fsWrite_self fs p cNew
  have hmv : moveFiles (applyCreated fs o.created) [p]
      = some (fsWrite (fsErase (applyCreated fs o.created) p) (contestBase p) cNew,
          .cons (.map (.cons "base-file" (.str (contestBase p))
            (.cons "test-file" (.str p) .nil))) .nil) := by
    simp [moveFiles, hfindp]
  rw [finishRecord_eq _ _ _ _ _ _ _ hmv] at hred
  refine ⟨_, hred, ?_, ?_⟩
  · rw [fsFind?_fsWrite_other _ _ _ _ hbasecfg, fsFind?_fsWrite_self]
  · intro hne h2
    rw [fsFind?_fsWrite_other _ _ _ _ hbasecfg, fsFind?_fsWrite_self] at h2
    exact hne (Option.some.inj h2)

/-- A working directory holding the persisted recipeDocT together with
a base-file copy left by an earlier recording. -/
def fsWithBase : FS :=
  [("contest_recipe.yaml", yaml_dump recipeDocT), ("./contest_out.txt", "old")]

/-- Claim C10 witness: recording a new test named t2 whose child writes
out.txt while a reference copy already sits at contest_out.txt; the
reference copy is silently replaced by the new content. -/
theorem base_file_silently_overwritten_witness :
    ∃ fsOut, record_test "contest_recipe.yaml" "t2" ["prog"] (some outcomeC)
        fsWithBase = .ret .zero fsOut
      ∧ fsFind? fsOut (contestBase "./out.txt") = some "x"
      ∧ ("x" ≠ "old" → fsFind? fsOut (contestBase "./out.txt") ≠ some "old") :=
  base_file_silently_overwritten "contest_recipe.yaml" "t2" "prog" [] outcomeC
    fsWithBase (yaml_dump recipeDocT) recipeMapT casesMapT (.str "prog")
    "./out.txt" "x" "old" rfl rfl (by decide) (by decide) (by decide) rfl
    (ordered_load_dump recipeDocT) rfl rfl rfl

/-- The single ofstream entry Scenario C actually records. -/
def scenarioCOfstream : YVal :=
  .map (.cons "base-file" (.str "./contest_out.txt")
    (.cons "test-file" (.str "./out.txt") .nil))

/-- The test case Scenario C actually persists. -/
def scenarioCCase : YMap :=
  .cons "return-code" (.int 2)
    (.cons "ofstreams" (.list (.cons scenarioCOfstream .nil)) .nil)

/-- The whole document Scenario C actually persists. -/
def scenarioCDoc : YVal :=
  .map (.cons "executable" (.str "prog")
    (.cons "test-cases" (.map (.cons "t1" (.map scenarioCCase) .nil)) .nil))

/-- Claim C2 counterexample: the concrete Scenario C recording (fresh
recipe, child writes out.txt and exits 2).  The recorded ofstream entry
holds base-file ./contest_out.txt and test-file ./out.txt, because the
snapshot enumerates paths joined onto the working directory marker, so
the entry is not the claimed pair of contest_out.txt and out.txt. -/
theorem scenarioC_paths_counterexample :
    record_test "contest_recipe.yaml" "t1" ["prog"] (some outcomeC) []
      = .ret .zero [("./contest_out.txt", "x"),
          ("contest_recipe.yaml", yaml_dump scenarioCDoc)]
    ∧ scenarioCCase.find? "ofstreams"
        = some (.list (.cons (.map (.cons "base-file"
            (.str "./contest_out.txt")
            (.cons "test-file" (.str "./out.txt") .nil))) .nil))
    ∧ ("./contest_out.txt" : String) ≠ "contest_out.txt"
    ∧ ("./out.txt" : String) ≠ "out.txt" := by
  refine ⟨rfl, rfl, by decide, by decide⟩

theorem YList.get?_lt_size : ∀ (l : YList) (i : Nat) (e : YVal),
    l.get? i = some e → i < l.size
  | .nil, _, _, h => by simp [YList.get?] at h
  | .cons _ tl, 0, _, _ => by simp [YList.size]
  | .cons _ tl, j + 1, e, h => by
      have hj := YList.get?_lt_size tl j e (by simpa [YList.get?] using h)
      simp only [YList.size]
      omega

theorem YMap.find?_setKey_self : ∀ (m : YMap) (k : String) (v : YVal),
    (m.setKey k v).find? k = some v
  | .nil, k, v => by simp [YMap.setKey, YMap.find?]
  | .cons k2 w tl, k, v => by
      by_cases hk : k2 = k
      · simp [YMap.setKey, YMap.find?, hk]
      · simp [YMap.setKey, YMap.find?, hk, YMap.find?_setKey_self tl k v]

theorem caseEntriesR_returnCode_present (ov : List (String × YVal)) (rc : Int)
    (args lines : List String) (so se : String) (nf : List String)
    (entries : YList)
    (hov : ov = [] ∨ ∃ s, ov = [("executable", YVal.str s)]) :
    (YMap.ofList (caseEntriesR ov rc args lines so se nf entries)).find?
      "return-code" = some (.int rc) := by
  rcases hov with h | ⟨s, h⟩ <;> subst h <;>
    simp [caseEntriesR, YMap.ofList, YMap.find?]

set_option maxHeartbeats 2000000 in
theorem caseEntriesR_ofstreams_present (ov : List (String × YVal)) (rc : Int)
    (args lines : List String) (so se : String) (nf : List String)
    (entries : YList)
    (hov : ov = [] ∨ ∃ s, ov = [("executable", YVal.str s)])
    (hnf : nf ≠ []) :
    (YMap.ofList (caseEntriesR ov rc args lines so se nf entries)).find?
      "ofstreams" = some (.list entries) := by
  rcases hov with h | ⟨s, h⟩ <;> subst h <;>
    by_cases ha : args = [] <;> by_cases hl : lines = [] <;>
    by_cases hso : so = "" <;> by_cases hse : se = "" <;>
    simp [caseEntriesR, YMap.ofList, YMap.find?, list_isEmpty_iff_nil,
      ha, hl, hso, hse, hnf]

/-- Claim C2 amended: a recording whose child created N distinct new
files records exactly N ofstream entries, one per created file, with no
guarantee on their order (the source iterates a set whose iteration
order is unspecified); each entry holds as test-file the original path
exactly as the snapshot reports it (with the leading working-directory
marker, for example ./out.txt) and as base-file the same directory with
the file name prefixed by contest_; each original path is absent
afterwards, its content sitting at the base-file path instead.  This
holds both when the recipe file is created fresh and when an existing
well-formed recipe is extended, and in both cases the persisted
document holds the test case with the run exit status as its
return-code and, whenever N is nonzero, exactly these ofstream
entries. -/
theorem new_files_relocated_and_recorded (cfg name exe : String)
    (args : List String) (o : RunOutcome) (fs : FS)
    (hfresh : ∀ pc ∈ o.created, fsFind? fs pc.1 = none)
    (hnodup : (o.created.map Prod.fst).Nodup)
    (hbasedisj : ∀ pc ∈ o.created, ∀ qc ∈ o.created, contestBase qc.1 ≠ pc.1)
    (hbasenodup : (o.created.map (fun pc => contestBase pc.1)).Nodup)
    (hcfgbase : ∀ pc ∈ o.created, contestBase pc.1 ≠ cfg)
    (hcfg : ∀ pc ∈ o.created, pc.1 ≠ cfg)
    (hbranch : fsFind? (applyCreated fs o.created) cfg = none
      ∨ ∃ content m tcm ev,
          fsFind? (applyCreated fs o.created) cfg = some content
          ∧ ordered_load content = some (.map m)
          ∧ m.find? "test-cases" = some (.map tcm)
          ∧ tcm.hasKey name = false
          ∧ m.find? "executable" = some ev) :
    ∃ fsOut entries,
      record_test cfg name (exe :: args) (some o) fs = .ret .zero fsOut
      ∧ entries.size = o.created.length
      ∧ (∀ pc ∈ o.created, ∃ i : Nat, entries.get? i
          = some (.map (.cons "base-file" (.str (contestBase pc.1))
              (.cons "test-file" (.str pc.1) .nil))))
      ∧ (∀ (i : Nat) (e : YVal), entries.get? i = some e →
          ∃ pc ∈ o.created,
            e = .map (.cons "base-file" (.str (contestBase pc.1))
              (.cons "test-file" (.str pc.1) .nil)))
      ∧ (∀ pc ∈ o.created, fsFind? fsOut pc.1 = none)
      ∧ (∀ pc ∈ o.created, fsFind? fsOut (contestBase pc.1) = some pc.2)
      ∧ ∃ mOut tcmOut caseM,
          loadRecipe cfg fsOut = some (.map mOut)
          ∧ mOut.find? "test-cases" = some (.map tcmOut)
          ∧ tcmOut.find? name = some (.map caseM)
          ∧ caseM.find? "return-code" = some (.int o.returncode)
          ∧ (o.created ≠ [] →
              caseM.find? "ofstreams" = some (.list entries)) := by
  have hnf := new_files_of_created o.created fs hfresh hnodup
  have hmem1 : ∀ pc ∈ o.created,
      fsFind? (applyCreated fs o.created) pc.1 = some pc.2 := fun pc hpc =>
    fsFind?_applyCreated_mem o.created fs pc.1 pc.2 hpc hnodup
  have hps_disj : ∀ q ∈ o.created.map Prod.fst, ∀ r ∈ o.created.map Prod.fst,
      contestBase r ≠ q := by
    intro q hq r hr
    obtain ⟨pc, hpc, rfl⟩ := List.mem_map.mp hq
    obtain ⟨qc, hqc, rfl⟩ := List.mem_map.mp hr
    exact hbasedisj pc hpc qc hqc
  have hps_basenodup : ((o.created.map Prod.fst).map contestBase).Nodup := by
    rw [List.map_map]
    exact hbasenodup
  have hps_src : ∀ q ∈ o.created.map Prod.fst,
      (fsFind? (applyCreated fs o.created) q).isSome := by
    intro q hq
    obtain ⟨pc, hpc, rfl⟩ := List.mem_map.mp hq
    rw [hmem1 pc hpc]
    rfl
  obtain ⟨fs2, entries, hmv, hsize, hidx, habsent, hbaseF, hframe⟩ :=
    moveFiles_spec (o.created.map Prod.fst) (applyCreated fs o.created)
      hnodup hps_disj hps_basenodup hps_src
  have hentry_fwd : ∀ pc ∈ o.created, ∃ i : Nat, entries.get? i
      = some (.map (.cons "base-file" (.str (contestBase pc.1))
          (.cons "test-file" (.str pc.1) .nil))) := by
    intro pc hpc
    obtain ⟨i, hi⟩ := List.mem_iff_getElem?.mp hpc
    refine ⟨i, ?_⟩
    apply hidx
    rw [List.getElem?_map, hi]
    rfl
  have hentry_bwd : ∀ (i : Nat) (e : YVal), entries.get? i = some e →
      ∃ pc ∈ o.created,
        e = .map (.cons "base-file" (.str (contestBase pc.1))
          (.cons "test-file" (.str pc.1) .nil)) := by
    intro i e he
    have hilt : i < entries.size := YList.get?_lt_size entries i e he
    rw [hsize] at hilt
    have hgi : (o.created.map Prod.fst)[i]?
        = some ((o.created.map Prod.fst)[i]) := List.getElem?_eq_getElem hilt
    have h2 := hidx i _ hgi
    rw [he] at h2
    have he2 := Option.some.inj h2
    have hmem : (o.created.map Prod.fst)[i] ∈ o.created.map Prod.fst :=
      List.getElem_mem hilt
    obtain ⟨pc, hpc, hfst⟩ := List.mem_map.mp hmem
    refine ⟨pc, hpc, ?_⟩
    rw [he2, hfst]
  rcases hbranch with hrecnone |
    ⟨content, m, tcm, ev, hrec1, hparse, htc, hfree, hexe⟩
  · have hred := record_test_fresh_branch cfg name exe args o fs hrecnone
    rw [hnf, finishRecord_eq _ _ _ _ _ _ _ hmv] at hred
    refine ⟨_, entries, hred, by simpa using hsize, hentry_fwd, hentry_bwd,
      ?_, ?_, ?_⟩
    · intro pc hpc
      rw [fsFind?_fsWrite_other _ _ _ _ (hcfg pc hpc)]
      exact habsent pc.1 (List.mem_map_of_mem Prod.fst hpc)
    · intro pc hpc
      rw [fsFind?_fsWrite_other _ _ _ _ (hcfgbase pc hpc),
        hbaseF pc.1 (List.mem_map_of_mem Prod.fst hpc)]
      exact hmem1 pc hpc
    · refine ⟨YMap.cons "executable" (YVal.str exe)
          (YMap.cons "test-cases" (YVal.map (YMap.cons name (YVal.map
            (YMap.ofList (caseEntriesR [] o.returncode args
          ((RecorderPipe.run o.inputLines o.polls).1) o.stdout o.stderr
          (o.created.map Prod.fst) entries))) YMap.nil)) YMap.nil),
        YMap.cons name (YVal.map (YMap.ofList (caseEntriesR [] o.returncode args
          ((RecorderPipe.run o.inputLines o.polls).1) o.stdout o.stderr
          (o.created.map Prod.fst) entries))) YMap.nil,
        YMap.ofList (caseEntriesR [] o.returncode args
          ((RecorderPipe.run o.inputLines o.polls).1) o.stdout o.stderr
          (o.created.map Prod.fst) entries), ?_, ?_, ?_, ?_, ?_⟩
      · unfold loadRecipe
        rw [fsFind?_fsWrite_self]
        exact ordered_load_dump _
      · simp [YMap.find?]
      · simp [YMap.find?]
      · exact caseEntriesR_returnCode_present _ _ _ _ _ _ _ _ (Or.inl rfl)
      · intro hcr
        exact caseEntriesR_ofstreams_present _ _ _ _ _ _ _ _ (Or.inl rfl)
          (fun h => hcr (List.map_eq_nil_iff.mp h))
  · have hov : (if ev ≠ YVal.str exe
        then [("executable", YVal.str exe)] else []) = []
        ∨ ∃ s, (if ev ≠ YVal.str exe
            then [("executable", YVal.str exe)] else [])
          = [("executable", YVal.str s)] := by
      by_cases h : ev ≠ YVal.str exe
      · exact Or.inr ⟨exe, if_pos h⟩
      · exact Or.inl (if_neg h)
    have hred := record_test_existing_branch cfg name exe args o fs content m
      tcm ev hrec1 hparse htc hfree hexe
    rw [hnf, finishRecord_eq _ _ _ _ _ _ _ hmv] at hred
    refine ⟨_, entries, hred, by simpa using hsize, hentry_fwd, hentry_bwd,
      ?_, ?_, ?_⟩
    · intro pc hpc
      rw [fsFind?_fsWrite_other _ _ _ _ (hcfg pc hpc)]
      exact habsent pc.1 (List.mem_map_of_mem Prod.fst hpc)
    · intro pc hpc
      rw [fsFind?_fsWrite_other _ _ _ _ (hcfgbase pc hpc),
        hbaseF pc.1 (List.mem_map_of_mem Prod.fst hpc)]
      exact hmem1 pc hpc
    · refine ⟨m.setKey "test-cases" (YVal.map (tcm.setKey name (YVal.map
          (YMap.ofList (caseEntriesR (if ev ≠ YVal.str exe
            then [("executable", YVal.str exe)] else []) o.returncode args
            ((RecorderPipe.run o.inputLines o.polls).1) o.stdout o.stderr
            (o.created.map Prod.fst) entries))))),
        tcm.setKey name (YVal.map (YMap.ofList (caseEntriesR (if ev ≠ YVal.str exe
            then [("executable", YVal.str exe)] else []) o.returncode args
            ((RecorderPipe.run o.inputLines o.polls).1) o.stdout o.stderr
            (o.created.map Prod.fst) entries))),
        YMap.ofList (caseEntriesR (if ev ≠ YVal.str exe
            then [("executable", YVal.str exe)] else []) o.returncode args
            ((RecorderPipe.run o.inputLines o.polls).1) o.stdout o.stderr
            (o.created.map Prod.fst) entries), ?_, ?_, ?_, ?_, ?_⟩
      · unfold loadRecipe
        rw [fsFind?_fsWrite_self]
        exact ordered_load_dump _
      · exact YMap.find?_setKey_self m "test-cases" _
      · exact YMap.find?_setKey_self tcm name _
      · exact caseEntriesR_returnCode_present _ _ _ _ _ _ _ _ hov
      · intro hcr
        exact caseEntriesR_ofstreams_present _ _ _ _ _ _ _ _ hov
          (fun h => hcr (List.map_eq_nil_iff.mp h))

/-- Claim C2 witness for the amended statement: the Scenario C input
recorded once against an empty working directory (fresh recipe) and
once against the persisted recipeDocT (incremental recording under the
new name t2). -/
theorem new_files_relocated_and_recorded_witness :
    (∃ fsOut entries,
      record_test "contest_recipe.yaml" "t1" ["prog"] (some outcomeC) []
        = .ret .zero fsOut
      ∧ YList.size entries = outcomeC.created.length
      ∧ (∀ pc ∈ outcomeC.created, fsFind? fsOut pc.1 = none)
      ∧ (∀ pc ∈ outcomeC.created, fsFind? fsOut (contestBase pc.1)
          = some pc.2))
    ∧ ∃ fsOut entries,
      record_test "contest_recipe.yaml" "t2" ["prog"] (some outcomeC)
          recipeFsT
        = .ret .zero fsOut
      ∧ YList.size entries = outcomeC.created.length
      ∧ (∀ pc ∈ outcomeC.created, fsFind? fsOut pc.1 = none)
      ∧ (∀ pc ∈ outcomeC.created, fsFind? fsOut (contestBase pc.1)
          = some pc.2) := by
  constructor
  · obtain ⟨fsOut, entries, h1, h2, h3, h4, h5, h6, h7⟩ :=
      new_files_relocated_and_recorded "contest_recipe.yaml" "t1" "prog" []
        outcomeC [] (by decide) (by decide) (by decide) (by decide)
        (by decide) (by decide) (Or.inl (by decide))
    exact ⟨fsOut, entries, h1, h2, h5, h6⟩
  · obtain ⟨fsOut, entries, h1, h2, h3, h4, h5, h6, h7⟩ :=
      new_files_relocated_and_recorded "contest_recipe.yaml" "t2" "prog" []
        outcomeC recipeFsT (by decide) (by decide) (by decide) (by decide)
        (by decide) (by decide)
        (Or.inr ⟨yaml_dump recipeDocT, recipeMapT, casesMapT, .str "prog",
          rfl, ordered_load_dump recipeDocT, rfl, rfl, rfl⟩)
    exact ⟨fsOut, entries, h1, h2, h5, h6⟩

theorem record_test_sa_existing_branch (name exe : String) (args : List String)
    (o : RunOutcome) (fs : FS) (content : String) (m tcm : YMap) (ev : YVal)
    (hrec1 : fsFind? (applyCreated fs o.created) "contest_recipe.yaml"
      = some content)
    (hparse : ordered_load content = some (.map m))
    (htc : m.find? "test-cases" = some (.map tcm))
    (hfree : tcm.hasKey name = false)
    (hexe : m.find? "executable" = some ev) :
    record_test_sa name (exe :: args) (some o) fs
      = finishRecord "contest_recipe.yaml" (applyCreated fs o.created)
          ((get_files (applyCreated fs o.created)).filter
            (fun p => !((get_files fs).contains p)))
          (caseEntriesS
            (if ev ≠ YVal.str exe then [("executable", YVal.str exe)] else [])
            o.returncode args ((RecorderPipe.run o.inputLines o.polls).1)
            o.stdout o.stderr
            ((get_files (applyCreated fs o.created)).filter
              (fun p => !((get_files fs).contains p))))
          (fun c => .map (m.setKey "test-cases"
            (.map (tcm.setKey name (.map c))))) := by
  simp only [record_test_sa, hrec1, hparse, htc, hfree, hexe, Bool.false_eq_true,
    if_false]

theorem record_test_sa_fresh_branch (name exe : String) (args : List String)
    (o : RunOutcome) (fs : FS)
    (hrec : fsFind? (applyCreated fs o.created) "contest_recipe.yaml" = none) :
    record_test_sa name (exe :: args) (some o) fs
      = finishRecord "contest_recipe.yaml" (applyCreated fs o.created)
          ((get_files (applyCreated fs o.created)).filter
            (fun p => !((get_files fs).contains p)))
          (caseEntriesS [] o.returncode args
            ((RecorderPipe.run o.inputLines o.polls).1) o.stdout o.stderr
            ((get_files (applyCreated fs o.created)).filter
              (fun p => !((get_files fs).contains p))))
          (fun c => .map (.cons "executable" (.str exe)
            (.cons "test-cases" (.map (.cons name (.map c) .nil)) .nil))) := by
  simp only [record_test_sa, hrec]

/-- Claim C8: on the standalone fixed recipe path, the modularized and
the standalone implementations behave identically on every input, and
whenever they persist a test case they hand the same surrounding
document and the same case entries to the shared final phase, differing
only in the stdin element: the standalone builder records the ordered
list of captured lines where the modularized one records their
newline-joined text, all other entries and their order being equal. -/
theorem implementations_agree_modulo_stdin (name : String)
    (cmd : List String) (run : Option RunOutcome) (fs : FS) :
    (record_test "contest_recipe.yaml" name cmd run fs
        = record_test_sa name cmd run fs
      ∨ ∃ fs1 nf ov rc args lines so se ic,
          record_test "contest_recipe.yaml" name cmd run fs
            = finishRecord "contest_recipe.yaml" fs1 nf
                (caseEntriesR ov rc args lines so se nf) ic
          ∧ record_test_sa name cmd run fs
            = finishRecord "contest_recipe.yaml" fs1 nf
                (caseEntriesS ov rc args lines so se nf) ic)
    ∧ ∀ ov rc args lines so se nf entries,
        caseEntriesR ov rc args lines so se nf entries
          = (ov ++ [("return-code", .int rc)]
              ++ (if args.isEmpty then []
                  else [("argv", .list (YList.ofStrings args))]))
            ++ ((if lines.isEmpty then []
                  else [("stdin", YVal.str (joinLines lines))])
              ++ ((if so = "" then [] else [("stdout", .str so)])
                ++ (if se = "" then [] else [("stderr", .str se)])
                ++ (if nf.isEmpty then [] else [("ofstreams", .list entries)])))
        ∧ caseEntriesS ov rc args lines so se nf entries
          = (ov ++ [("return-code", .int rc)]
              ++ (if args.isEmpty then []
                  else [("argv", .list (YList.ofStrings args))]))
            ++ ((if lines.isEmpty then []
                  else [("stdin", YVal.list (YList.ofStrings lines))])
              ++ ((if so = "" then [] else [("stdout", .str so)])
                ++ (if se = "" then [] else [("stderr", .str se)])
                ++ (if nf.isEmpty then []
                    else [("ofstreams", .list entries)]))) := by
  constructor
  · cases cmd with
    | nil => exact Or.inl rfl
    | cons exe args =>
        cases run with
        | none => exact Or.inl rfl
        | some o =>
            rcases hfind : fsFind? (applyCreated fs o.created)
                "contest_recipe.yaml" with _ | content
            · right
              exact ⟨_, _, [], o.returncode, args, _, o.stdout, o.stderr, _,
                record_test_fresh_branch _ name exe args o fs hfind,
                record_test_sa_fresh_branch name exe args o fs hfind⟩
            · rcases hol : ordered_load content with _ | doc
              · left
                simp only [record_test, record_test_sa, hfind, hol]
              · cases doc with
                | str s =>
                    left
                    simp only [record_test, record_test_sa, hfind, hol]
                | int n =>
                    left
                    simp only [record_test, record_test_sa, hfind, hol]
                | list l =>
                    left
                    simp only [record_test, record_test_sa, hfind, hol]
                | map m =>
                    rcases htc : m.find? "test-cases" with _ | v
                    · left
                      simp only [record_test, record_test_sa, hfind, hol, htc]
                    · cases v with
                      | str s =>
                          left
                          simp only [record_test, record_test_sa, hfind, hol, htc]
                      | int n =>
                          left
                          simp only [record_test, record_test_sa, hfind, hol, htc]
                      | list l =>
                          left
                          simp only [record_test, record_test_sa, hfind, hol, htc]
                      | map tcm =>
                          cases hdup : tcm.hasKey name with
                          | true =>
                              left
                              simp only [record_test, record_test_sa, hfind,
                                hol, htc, hdup, if_true]
                          | false =>
                              rcases hexe : m.find? "executable" with _ | ev
                              · left
                                simp only [record_test, record_test_sa, hfind,
                                  hol, htc, hdup, hexe, Bool.false_eq_true,
                                  if_false]
                              · right
                                exact ⟨_, _,
                                  (if ev ≠ YVal.str exe
                                    then [("executable", YVal.str exe)] else []),
                                  o.returncode, args, _, o.stdout, o.stderr, _,
                                  record_test_existing_branch
                                    "contest_recipe.yaml" name exe args o fs
                                    content m tcm ev hfind hol htc hdup hexe,
                                  record_test_sa_existing_branch name exe args
                                    o fs content m tcm ev hfind hol htc hdup
                                    hexe⟩
  · intro ov rc args lines so se nf entries
    constructor
    · simp [caseEntriesR, List.append_assoc]
    · simp [caseEntriesS, List.append_assoc]

end ContestGen
